import Mathlib

/-
Shallow embedding of the pipeline execution engine of this repository
(video_app_utils.py and the pipeline wiring in trt_pose_app.py).

The embedding models:
  * the bounded output queue of a PipelineWorker together with its
    drop-oldest overflow policy and its numDrops counter, as executed by
    PipelineWorker._run (video_app_utils.py lines 110-113);
  * the run loop of PipelineWorker._run, including termination when the
    process method signals failure (lines 102-113);
  * the source/destination wiring performed by PipelineWorker.__init__
    (lines 60-74) and the topology scan of
    ContinuousVideoProcess.getSources/scanPipeline (lines 278-281, 322-328)
    together with the start/stop call orders of startPipeline/stopPipeline
    (lines 283-290) and of main in trt_pose_app.py (lines 140-145, 176-181);
  * IntervalCounter (lines 215-245), with the wall-clock abstracted into
    the sequence of inter-call elapsed times fed to measure.

Payloads are opaque type parameters; Python floats are modelled as exact
rationals.
-/

namespace VideoAppUtils

/-- The output queue of one PipelineWorker: the `queue.Queue(qsize)` created
in `PipelineWorker.__init__` paired with the worker's `numDrops` counter.
`maxsize` is the `qsize` constructor argument. -/
structure Relay (α : Type) where
  maxsize : Nat
  queue : List α
  numDrops : Nat
deriving Repr, DecidableEq

/-- A freshly constructed worker queue: empty, no drops
(`PipelineWorker.__init__`). -/
def Relay.empty {α : Type} (maxsize : Nat) : Relay α :=
  { maxsize := maxsize, queue := [], numDrops := 0 }

/-- Python `queue.Queue.full()`: true when `maxsize` is positive and the
occupancy has reached it (a `maxsize` of 0 means unbounded in Python). -/
def Relay.full {α : Type} (r : Relay α) : Prop :=
  0 < r.maxsize ∧ r.maxsize ≤ r.queue.length

instance {α : Type} (r : Relay α) : Decidable r.full :=
  inferInstanceAs (Decidable (0 < r.maxsize ∧ r.maxsize ≤ r.queue.length))

/-- One enqueue performed by `PipelineWorker._run` (lines 110-113): if the
queue is full, the oldest item is removed and `numDrops` is incremented,
then the new item is appended. -/
def Relay.push {α : Type} (r : Relay α) (x : α) : Relay α :=
  if r.full then
    { r with queue := r.queue.tail ++ [x], numDrops := r.numDrops + 1 }
  else
    { r with queue := r.queue ++ [x] }

/-- Model of `PipelineWorker.get` / `queue.Queue.get(block=True)`: remove and return
the oldest item.  `none` models the blocked state on an empty queue. -/
def Relay.pop {α : Type} (r : Relay α) : Option (α × Relay α) :=
  match r.queue with
  | [] => none
  | x :: xs => some (x, { r with queue := xs })

/-- A sequence of run-loop enqueues with no intervening `get`. -/
def Relay.pushAll {α : Type} (r : Relay α) (xs : List α) : Relay α :=
  xs.foldl Relay.push r

lemma Relay.pushAll_nil {α : Type} (r : Relay α) : r.pushAll [] = r := rfl

lemma Relay.pushAll_append_singleton {α : Type} (r : Relay α) (xs : List α) (x : α) :
    r.pushAll (xs ++ [x]) = (r.pushAll xs).push x := by
  simp [Relay.pushAll]

lemma Relay.push_maxsize {α : Type} (r : Relay α) (x : α) :
    (r.push x).maxsize = r.maxsize := by
  by_cases h : r.full <;> simp [Relay.push, h]

/-- After pushing the list `xs` into an initially empty relay of capacity
`C ≥ 1`, the queue holds exactly the suffix of `xs` past the first
`xs.length - C` items, and `numDrops` counts the dropped prefix. -/
lemma Relay.pushAll_empty_spec {α : Type} (C : Nat) (hC : 1 ≤ C) (xs : List α) :
    ((Relay.empty C).pushAll xs).queue = xs.drop (xs.length - C) ∧
    ((Relay.empty C).pushAll xs).numDrops = xs.length - C ∧
    ((Relay.empty C).pushAll xs).maxsize = C := by
  induction xs using List.reverseRecOn with
  | nil => simp [Relay.pushAll, Relay.empty]
  | append_singleton xs x ih =>
    obtain ⟨hq, hd, hm⟩ := ih
    rw [Relay.pushAll_append_singleton]
    set r := (Relay.empty C).pushAll xs with hr
    have hlen : r.queue.length = xs.length - (xs.length - C) := by
      rw [hq, List.length_drop]
    by_cases h : C ≤ xs.length
    · have hfull : r.full := by
        constructor
        · omega
        · rw [hlen]; omega
      have h1 : r.queue.tail = xs.drop (xs.length - C + 1) := by
        rw [hq, List.tail_drop]
      have h2 : xs.length - C + 1 = (xs ++ [x]).length - C := by
        simp; omega
      refine ⟨?_, ?_, ?_⟩
      · rw [Relay.push, if_pos hfull, h1]
        show xs.drop (xs.length - C + 1) ++ [x] = _
        rw [h2, List.drop_append_of_le_length (by simp; omega)]
      · rw [Relay.push, if_pos hfull]
        show r.numDrops + 1 = _
        rw [hd]; simp; omega
      · rw [Relay.push_maxsize, hm]
    · have hnotfull : ¬ r.full := by
        intro hfull
        obtain ⟨hf1, hf2⟩ := hfull
        rw [hm] at hf1
        rw [hlen] at hf2
        rw [hm] at hf2
        omega
      have h0 : xs.length - C = 0 := by omega
      have h0' : (xs ++ [x]).length - C = 0 := by simp; omega
      refine ⟨?_, ?_, ?_⟩
      · rw [Relay.push, if_neg hnotfull]
        show r.queue ++ [x] = _
        rw [hq, h0, h0']
        simp
      · rw [Relay.push, if_neg hnotfull]
        show r.numDrops = _
        rw [hd, h0, h0']
      · rw [Relay.push_maxsize, hm]

/-- An operation on a worker's output queue: a run-loop enqueue
(`PipelineWorker._run` lines 110-113) or a consumer dequeue
(`PipelineWorker.get`). -/
inductive QOp (α : Type) where
  | push (x : α)
  | pop
deriving Repr, DecidableEq

/-- Effect of one queue operation on the relay state.  A `pop` of an empty
queue blocks the consumer in Python; blocking is modelled as leaving the
state unchanged. -/
def Relay.step {α : Type} (r : Relay α) : QOp α → Relay α
  | QOp.push x => r.push x
  | QOp.pop =>
    match r.queue with
    | [] => r
    | _ :: xs => { r with queue := xs }

/-- Apply a sequence of queue operations. -/
def Relay.applyOps {α : Type} (r : Relay α) (ops : List (QOp α)) : Relay α :=
  ops.foldl Relay.step r

lemma Relay.step_maxsize {α : Type} (r : Relay α) (op : QOp α) :
    (r.step op).maxsize = r.maxsize := by
  cases op with
  | push x => exact r.push_maxsize x
  | pop => cases hq : r.queue <;> simp [Relay.step, hq]

lemma Relay.push_length_le {α : Type} (r : Relay α) (x : α)
    (h1 : 1 ≤ r.maxsize) (h : r.queue.length ≤ r.maxsize) :
    (r.push x).queue.length ≤ r.maxsize := by
  by_cases hfull : r.full
  · obtain ⟨hf1, hf2⟩ := hfull
    rw [Relay.push, if_pos ⟨hf1, hf2⟩]
    simp [List.length_tail]
    omega
  · rw [Relay.push, if_neg hfull]
    have : ¬ (0 < r.maxsize ∧ r.maxsize ≤ r.queue.length) := hfull
    simp
    omega

lemma Relay.step_length_le {α : Type} (r : Relay α) (op : QOp α)
    (h1 : 1 ≤ r.maxsize) (h : r.queue.length ≤ r.maxsize) :
    (r.step op).queue.length ≤ r.maxsize := by
  cases op with
  | push x => exact r.push_length_le x h1 h
  | pop =>
    cases hq : r.queue with
    | nil => simp [Relay.step, hq]
    | cons y ys =>
      simp [Relay.step, hq]
      rw [hq] at h
      simp at h
      omega

lemma Relay.step_numDrops_le {α : Type} (r : Relay α) (op : QOp α) :
    r.numDrops ≤ (r.step op).numDrops := by
  cases op with
  | push x => by_cases hfull : r.full <;> simp [Relay.step, Relay.push, hfull]
  | pop => cases hq : r.queue <;> simp [Relay.step, hq]

lemma Relay.applyOps_maxsize {α : Type} (ops : List (QOp α)) :
    ∀ r : Relay α, (r.applyOps ops).maxsize = r.maxsize := by
  induction ops with
  | nil => intro r; rfl
  | cons op ops ih =>
    intro r
    show ((r.step op).applyOps ops).maxsize = r.maxsize
    rw [ih (r.step op), Relay.step_maxsize]

lemma Relay.applyOps_length_le {α : Type} (ops : List (QOp α)) :
    ∀ r : Relay α, 1 ≤ r.maxsize → r.queue.length ≤ r.maxsize →
      (r.applyOps ops).queue.length ≤ (r.applyOps ops).maxsize := by
  induction ops with
  | nil => intro r h1 h; simpa [Relay.applyOps] using h
  | cons op ops ih =>
    intro r h1 h
    show ((r.step op).applyOps ops).queue.length ≤ _
    have hms : (r.step op).maxsize = r.maxsize := r.step_maxsize op
    have := ih (r.step op) (by rw [hms]; exact h1)
      (by rw [hms]; exact r.step_length_le op h1 h)
    simpa [Relay.applyOps_maxsize, Relay.step_maxsize] using this

lemma Relay.applyOps_append_singleton {α : Type} (r : Relay α)
    (ops : List (QOp α)) (op : QOp α) :
    r.applyOps (ops ++ [op]) = (r.applyOps ops).step op := by
  simp [Relay.applyOps]

/-- The trace semantics of a worker queue under an interleaved sequence of
run-loop enqueues and consumer dequeues: the final relay state together
with the list of items returned by the dequeues, in the order they were
returned.  A `pop` finding the queue empty blocks and returns nothing. -/
def Relay.runTrace {α : Type} (r : Relay α) : List (QOp α) → Relay α × List α
  | [] => (r, [])
  | QOp.push x :: ops => Relay.runTrace (r.push x) ops
  | QOp.pop :: ops =>
    match r.pop with
    | none => Relay.runTrace r ops
    | some (x, r') =>
      let p := Relay.runTrace r' ops
      (p.1, x :: p.2)

/-- The items accepted by push over a sequence of operations, in push
order (every pushed item is accepted; eviction happens later). -/
def pushedOf {α : Type} (ops : List (QOp α)) : List α :=
  ops.filterMap fun op =>
    match op with
    | QOp.push x => some x
    | QOp.pop => none

lemma Relay.runTrace_sublist {α : Type} (ops : List (QOp α)) :
    ∀ r : Relay α, (Relay.runTrace r ops).2.Sublist (r.queue ++ pushedOf ops) := by
  induction ops with
  | nil =>
    intro r
    simp [Relay.runTrace]
  | cons op ops ih =>
    intro r
    cases op with
    | push x =>
      have h1 := ih (r.push x)
      have h2 : ((r.push x).queue ++ pushedOf ops).Sublist
          (r.queue ++ pushedOf (QOp.push x :: ops)) := by
        have hp : pushedOf (QOp.push x :: ops) = x :: pushedOf ops := by
          simp [pushedOf]
        rw [hp]
        by_cases hfull : r.full
        · rw [Relay.push, if_pos hfull]
          show (r.queue.tail ++ [x] ++ pushedOf ops).Sublist _
          have := (List.tail_sublist r.queue).append_right ([x] ++ pushedOf ops)
          simpa using this
        · rw [Relay.push, if_neg hfull]
          show (r.queue ++ [x] ++ pushedOf ops).Sublist _
          simp
      have h0 : (Relay.runTrace r (QOp.push x :: ops)).2
          = (Relay.runTrace (r.push x) ops).2 := rfl
      rw [h0]
      exact h1.trans h2
    | pop =>
      cases hq : r.queue with
      | nil =>
        have hpop : r.pop = none := by simp [Relay.pop, hq]
        have h1 := ih r
        have hp : pushedOf (QOp.pop :: ops) = pushedOf ops := by simp [pushedOf]
        rw [hq] at h1
        simpa [Relay.runTrace, hpop, hp, hq] using h1
      | cons y ys =>
        have hpop : r.pop = some (y, { r with queue := ys }) := by
          simp [Relay.pop, hq]
        have h1 := ih { r with queue := ys }
        have hp : pushedOf (QOp.pop :: ops) = pushedOf ops := by simp [pushedOf]
        simp only [Relay.runTrace, hpop, hp, hq]
        exact List.Sublist.cons₂ y (by simpa using h1)

/-- The body of `PipelineWorker._run` (lines 102-113) applied to the
sequence of inputs the stage pulls via `getData`, given the outcomes of
its `process` method: while inputs remain, pull the next input, run
`process` on it; if `process` signals failure (returns `ret == False`,
modelled by `none`) the loop terminates at once; otherwise the produced
output is pushed onto the stage's own queue with drop-oldest overflow.
The running flag and semaphore only control external shutdown and are not
part of the data behaviour modelled here. -/
def runLoop {α β : Type} (process : α → Option β) (r : Relay β) :
    List α → Relay β
  | [] => r
  | x :: xs =>
    match process x with
    | none => r
    | some y => runLoop process (r.push y) xs

/-- One stage of the trt_pose_app pipeline: a PipelineWorker subclass
with its overriding `process` method (here a total transform, i.e. one
that always returns `(True, output)`) and its `qsize` constructor
argument. -/
structure Stage (α : Type) where
  process : α → α
  qsize : Nat

/-- Sequential drain semantics of a linear chain: each stage's run loop
consumes the full output list of its upstream stage (the data movement of
`PipelineWorker.getData` / `get`), and the stage's own queue contents
become the next stage's input sequence. -/
def runChain {α : Type} (stages : List (Stage α)) (xs : List α) : List α :=
  stages.foldl
    (fun acc s => (runLoop (fun a => some (s.process a)) (Relay.empty s.qsize) acc).queue)
    xs

/-- The composition of the transforms of a chain, in chain order. -/
def composeChain {α : Type} (stages : List (Stage α)) : α → α :=
  stages.foldl (fun g s => s.process ∘ g) id

lemma runLoop_total_eq_pushAll {α β : Type} (f : α → β) (xs : List α) :
    ∀ r : Relay β, runLoop (fun a => some (f a)) r xs = r.pushAll (xs.map f) := by
  induction xs with
  | nil => intro r; rfl
  | cons x xs ih =>
    intro r
    show runLoop _ (r.push (f x)) xs = _
    rw [ih (r.push (f x))]
    rfl

lemma Relay.pushAll_no_overflow {α : Type} (xs : List α) :
    ∀ r : Relay α, r.queue.length + xs.length ≤ r.maxsize ∨ r.maxsize = 0 →
      r.pushAll xs = { r with queue := r.queue ++ xs } := by
  induction xs with
  | nil => intro r _; simp [Relay.pushAll]
  | cons x xs ih =>
    intro r h
    have hnotfull : ¬ r.full := by
      intro hfull
      obtain ⟨hf1, hf2⟩ := hfull
      rcases h with h | h
      · simp at h; omega
      · omega
    show (r.push x).pushAll xs = _
    rw [Relay.push, if_neg hnotfull]
    rw [ih _ (by rcases h with h | h
                 · left; simp at h ⊢; omega
                 · right; exact h)]
    simp

lemma composeChain_acc {α : Type} (stages : List (Stage α)) :
    ∀ g : α → α, stages.foldl (fun g s => s.process ∘ g) g = composeChain stages ∘ g := by
  induction stages with
  | nil => intro g; rfl
  | cons s stages ih =>
    intro g
    show stages.foldl _ (s.process ∘ g) = _
    rw [ih (s.process ∘ g)]
    show composeChain stages ∘ (s.process ∘ g)
        = (List.foldl _ (s.process ∘ id) stages) ∘ g
    rw [ih (s.process ∘ id)]
    rfl

lemma runChain_eq_map {α : Type} (stages : List (Stage α)) :
    ∀ xs : List α, (∀ s ∈ stages, xs.length ≤ s.qsize) →
      runChain stages xs = xs.map (composeChain stages) := by
  induction stages with
  | nil => intro xs _; simp [runChain, composeChain]
  | cons s stages ih =>
    intro xs hcap
    have hs : xs.length ≤ s.qsize := hcap s (by simp)
    have hstage : (runLoop (fun a => some (s.process a)) (Relay.empty s.qsize) xs).queue
        = xs.map s.process := by
      rw [runLoop_total_eq_pushAll]
      rw [Relay.pushAll_no_overflow (xs.map s.process) (Relay.empty s.qsize)
          (by left; simpa [Relay.empty] using hs)]
      simp [Relay.empty]
    have hnext : runChain (s :: stages) xs = runChain stages (xs.map s.process) := by
      show List.foldl _ ((runLoop _ (Relay.empty s.qsize) xs).queue) stages = _
      rw [hstage]
      rfl
    rw [hnext, ih (xs.map s.process)
      (by intro t ht; rw [List.length_map]; exact hcap t (by simp [ht]))]
    rw [List.map_map]
    show xs.map (composeChain stages ∘ s.process) = _
    have : composeChain (s :: stages) = composeChain stages ∘ s.process := by
      show stages.foldl _ (s.process ∘ id) = _
      rw [composeChain_acc stages (s.process ∘ id)]
      rfl
    rw [this]

/-- The linking state of one PipelineWorker: its `source` and
`destination` attributes, each an optional reference to another worker.
Workers are identified by their index in the construction order. -/
structure Worker where
  source : Option Nat
  destination : Option Nat
deriving Repr, DecidableEq

/-- Overwrite the `destination` attribute of the worker at index `s`
(the assignment `self.source.destination = self` in
`PipelineWorker.__init__`). -/
def setDestAt : List Worker → Nat → Option Nat → List Worker
  | [], _, _ => []
  | w :: ws, 0, d => { w with destination := d } :: ws
  | w :: ws, s + 1, d => w :: setDestAt ws s d

/-- Model of `PipelineWorker.__init__` (lines 60-74) restricted to its linking
effect: the new worker stores the given `source`; if the source is not
`None`, the source worker's `destination` is set to the new worker; the
new worker's own `destination` starts as `None`.  The new worker's index
is the current length of the worker list. -/
def addWorker (ws : List Worker) (source : Option Nat) : List Worker :=
  (match source with
   | none => ws
   | some s => setDestAt ws s (some ws.length))
  ++ [{ source := source, destination := none }]

/-- The linear chain built by the application: worker 0 (the capture
stage) is constructed with no source, and each later worker is
constructed with the previous worker as source, exactly as in
trt_pose_app.main lines 131-138 and in ContinuousVideoProcess. -/
def mkChain : Nat → List Worker
  | 0 => []
  | n + 1 => addWorker (mkChain n) (if n = 0 then none else some (n - 1))

/-- The `destination` attribute of the worker at index `i`. -/
def destOf (ws : List Worker) (i : Nat) : Option Nat :=
  (ws.get? i).bind Worker.destination

/-- The `source` attribute of the worker at index `i`. -/
def srcOf (ws : List Worker) (i : Nat) : Option Nat :=
  (ws.get? i).bind Worker.source

/-- Model of `ContinuousVideoProcess.getSources` (lines 322-328): append the
current worker to the accumulator list and follow its `destination`
pointer.  The Python recursion is unbounded; here a fuel argument bounds
it, and the fuel-exhausted branch is unreachable for the acyclic chains
built by `mkChain` with fuel at least the chain length. -/
def getSources (ws : List Worker) : Nat → Option Nat → List Nat → List Nat
  | _, none, srcList => srcList
  | 0, some _, srcList => srcList
  | fuel + 1, some i, srcList => getSources ws fuel (destOf ws i) (srcList ++ [i])

/-- Model of `ContinuousVideoProcess.scanPipeline` (lines 278-281): run
`getSources` from the head worker (`self.capture`, index 0) and reverse
the result; the reversed list is stored as `self.pipeline`, so
`pipeline[0]` is the most-downstream stage. -/
def scanPipeline (ws : List Worker) : List Nat :=
  (getSources ws ws.length (some 0) []).reverse

/-- Model of `ContinuousVideoProcess.startPipeline` (lines 283-286): it iterates
`self.pipeline` in list order and calls `start` on each worker: the
sequence of workers whose `start` is invoked, in invocation order. -/
def startPipelineOrder (ws : List Worker) : List Nat :=
  scanPipeline ws

/-- Model of `ContinuousVideoProcess.stopPipeline` (lines 288-290): it iterates
`self.pipeline` in list order and calls `stop` on each worker: the
sequence of workers whose `stop` is invoked, in invocation order. -/
def stopPipelineOrder (ws : List Worker) : List Nat :=
  scanPipeline ws

/-- The chain built by trt_pose_app.main (lines 131-138): indices
0..5 are capture, colorConv, resize, preprocess, inference, postprocess
in construction order. -/
def mainChain : List Worker := mkChain 6

/-- The order in which trt_pose_app.main invokes `start` (lines 140-145):
postprocess, inference, preprocess, resize, colorConv, capture. -/
def mainStartOrder : List Nat := [5, 4, 3, 2, 1, 0]

/-- The order in which trt_pose_app.main invokes `stop` (lines 176-181):
postprocess, inference, preprocess, resize, colorConv, capture. -/
def mainStopOrder : List Nat := [5, 4, 3, 2, 1, 0]

/-- The expected linking state of worker `i` in a linear chain of
length `n`. -/
def chainWorker (n i : Nat) : Worker :=
  { source := if i = 0 then none else some (i - 1),
    destination := if i + 1 < n then some (i + 1) else none }

lemma setDestAt_get? (d : Option Nat) :
    ∀ (ws : List Worker) (s m : Nat),
      (setDestAt ws s d).get? m =
        if m = s then (ws.get? m).map (fun w => { w with destination := d })
        else ws.get? m := by
  intro ws
  induction ws with
  | nil => intro s m; cases s <;> cases m <;> simp [setDestAt]
  | cons w ws ih =>
    intro s m
    cases s with
    | zero => cases m <;> simp [setDestAt]
    | succ s =>
      cases m with
      | zero => simp [setDestAt]
      | succ m => simpa [setDestAt] using ih s m

lemma setDestAt_length (d : Option Nat) :
    ∀ (ws : List Worker) (s : Nat), (setDestAt ws s d).length = ws.length := by
  intro ws
  induction ws with
  | nil => intro s; cases s <;> rfl
  | cons w ws ih =>
    intro s
    cases s with
    | zero => rfl
    | succ s => simpa [setDestAt] using ih s

lemma mkChain_get? (n : Nat) (hmk : mkChain n = (List.range n).map (chainWorker n))
    (m : Nat) (hm : m < n) : (mkChain n).get? m = some (chainWorker n m) := by
  rw [hmk, List.get?_map, List.get?_range hm]
  rfl

lemma mkChain_eq : ∀ n : Nat, mkChain n = (List.range n).map (chainWorker n) := by
  intro n
  induction n with
  | zero => rfl
  | succ n ih =>
    by_cases hn : n = 0
    · subst hn; decide
    · have hlen : (mkChain n).length = n := by rw [ih]; simp
      have hslen : (setDestAt (mkChain n) (n - 1) (some (mkChain n).length)).length = n := by
        rw [setDestAt_length, hlen]
      show addWorker (mkChain n) (if n = 0 then none else some (n - 1)) = _
      rw [if_neg hn]
      apply List.ext_get?
      intro m
      rw [addWorker]
      rcases Nat.lt_trichotomy m n with hm | hm | hm
      · have hR : ((List.range (n + 1)).map (chainWorker (n + 1))).get? m
            = some (chainWorker (n + 1) m) := by
          rw [List.get?_map, List.get?_range (by omega)]
          rfl
        rw [hR, List.get?_append (by rw [hslen]; exact hm), setDestAt_get?]
        by_cases hm1 : m = n - 1
        · rw [if_pos hm1, mkChain_get? n ih m hm]
          subst hm1
          rw [hlen]
          show some _ = some _
          congr 1
          simp only [chainWorker]
          have h3 : n - 1 + 1 = n := by omega
          rw [h3, if_pos (Nat.lt_succ_self n)]
        · rw [if_neg hm1, mkChain_get? n ih m hm]
          congr 1
          simp only [chainWorker]
          have h1 : m + 1 < n := by omega
          rw [if_pos h1, if_pos (show m + 1 < n + 1 by omega)]
      · subst hm
        have hR : ((List.range (m + 1)).map (chainWorker (m + 1))).get? m
            = some (chainWorker (m + 1) m) := by
          rw [List.get?_map, List.get?_range (by omega)]
          rfl
        rw [hR, List.get?_append_right (by rw [hslen]), hslen, Nat.sub_self]
        show some _ = some _
        congr 1
        simp only [chainWorker]
        rw [if_neg hn, if_neg (by omega)]
      · rw [List.get?_append_right (by omega)]
        rw [List.get?_eq_none.mpr (by simp; omega),
            List.get?_eq_none.mpr (by simpa using hm)]

lemma mkChain_length (n : Nat) : (mkChain n).length = n := by
  rw [mkChain_eq]; simp

lemma destOf_mkChain (n i : Nat) :
    destOf (mkChain n) i = if i + 1 < n then some (i + 1) else none := by
  by_cases hi : i < n
  · rw [destOf, mkChain_get? n (mkChain_eq n) i hi]
    rfl
  · rw [destOf, List.get?_eq_none.mpr (by rw [mkChain_length]; omega)]
    rw [if_neg (by omega)]
    rfl

lemma srcOf_mkChain (n j : Nat) :
    srcOf (mkChain n) j =
      if j < n then (if j = 0 then none else some (j - 1)) else none := by
  by_cases hj : j < n
  · rw [srcOf, mkChain_get? n (mkChain_eq n) j hj, if_pos hj]
    rfl
  · rw [srcOf, List.get?_eq_none.mpr (by rw [mkChain_length]; omega), if_neg hj]
    rfl

lemma getSources_mkChain (n : Nat) :
    ∀ (fuel i : Nat) (acc : List Nat), i < n → n - i ≤ fuel →
      getSources (mkChain n) fuel (some i) acc = acc ++ List.range' i (n - i) := by
  intro fuel
  induction fuel with
  | zero => intro i acc hi hf; omega
  | succ fuel ih =>
    intro i acc hi hf
    show getSources (mkChain n) fuel (destOf (mkChain n) i) (acc ++ [i]) = _
    rw [destOf_mkChain]
    by_cases hi1 : i + 1 < n
    · rw [if_pos hi1, ih (i + 1) (acc ++ [i]) hi1 (by omega)]
      have hr : n - i = (n - (i + 1)) + 1 := by omega
      rw [hr, List.range'_succ]
      simp
    · rw [if_neg hi1]
      have hi2 : i = n - 1 := by omega
      have hr : n - i = 1 := by omega
      rw [hr, List.range'_one]
      cases fuel <;> rfl

lemma scanPipeline_mkChain (n : Nat) (hn : 1 ≤ n) :
    scanPipeline (mkChain n) = (List.range n).reverse := by
  rw [scanPipeline, mkChain_length,
      getSources_mkChain n n 0 [] (by omega) (by omega)]
  rw [List.range_eq_range']
  simp

/-- State of `IntervalCounter` (video_app_utils.py lines 215-223): the window
size `numSamples`, the sliding buffer `samples` (initialised to
`numSamples` zeros), and the call counter `count`.  The `lastTime` stamp
is absorbed into the model: `measure` receives the elapsed time since the
previous call as its argument, and Python floats are modelled as exact
rationals. -/
structure IntervalCounter where
  numSamples : Nat
  samples : List ℚ
  count : Nat
deriving Repr, DecidableEq

/-- Model of `IntervalCounter.__init__`: a zero-filled window and a zero count. -/
def IntervalCounter.init (numSamples : Nat) : IntervalCounter :=
  { numSamples := numSamples, samples := List.replicate numSamples 0, count := 0 }

/-- Model of `IntervalCounter.measure` (lines 228-245) with the elapsed time as
input: append the new sample, delete the oldest (index 0), bump the
counter, and return the window average (`np.average` is sum divided by
length) only when the counter strictly exceeds `numSamples`; otherwise
return `none` (Python `None`). -/
def IntervalCounter.measure (c : IntervalCounter) (elapsedTime : ℚ) :
    IntervalCounter × Option ℚ :=
  let samples := (c.samples ++ [elapsedTime]).tail
  let count := c.count + 1
  let c' : IntervalCounter := { c with samples := samples, count := count }
  if count > c.numSamples then
    (c', some (samples.sum / (samples.length : ℚ)))
  else
    (c', none)

/-- A sequence of `measure` calls with the given inter-call elapsed
times: final state and the list of returned values in call order. -/
def runMeasures : IntervalCounter → List ℚ → IntervalCounter × List (Option ℚ)
  | c, [] => (c, [])
  | c, d :: ds =>
    let p := c.measure d
    let q := runMeasures p.1 ds
    (q.1, p.2 :: q.2)

lemma IntervalCounter.measure_fst (c : IntervalCounter) (d : ℚ) :
    (c.measure d).1 = { c with samples := (c.samples ++ [d]).tail,
                               count := c.count + 1 } := by
  rw [IntervalCounter.measure]
  by_cases h : c.count + 1 > c.numSamples <;> simp [h]

lemma IntervalCounter.measure_snd (c : IntervalCounter) (d : ℚ) :
    (c.measure d).2 =
      if c.numSamples < c.count + 1
      then some (((c.samples ++ [d]).tail).sum / (((c.samples ++ [d]).tail).length : ℚ))
      else none := by
  rw [IntervalCounter.measure]
  by_cases h : c.count + 1 > c.numSamples <;> simp [h]

/-- Closed form of the `measure` return values: the i-th call (0-based)
returns `none` until the counter exceeds the window size, and afterwards
the average of the window obtained from the initial buffer extended by
the first `i+1` inputs with the oldest `i+1` entries deleted. -/
lemma runMeasures_get? :
    ∀ (ds : List ℚ) (c : IntervalCounter) (i : Nat), i < ds.length →
      (runMeasures c ds).2.get? i =
        some (if c.numSamples < c.count + i + 1
              then some ((((c.samples ++ ds.take (i + 1)).drop (i + 1)).sum)
                         / ((((c.samples ++ ds.take (i + 1)).drop (i + 1)).length : ℚ)))
              else none) := by
  intro ds
  induction ds with
  | nil => intro c i hi; simp at hi
  | cons d ds ih =>
    intro c i hi
    have hrun : (runMeasures c (d :: ds)).2
        = (c.measure d).2 :: (runMeasures (c.measure d).1 ds).2 := rfl
    cases i with
    | zero =>
      rw [hrun]
      show some (c.measure d).2 = _
      rw [IntervalCounter.measure_snd]
      have htake : (d :: ds).take 1 = [d] := rfl
      rw [htake, List.drop_one]
    | succ i =>
      rw [hrun]
      show (runMeasures (c.measure d).1 ds).2.get? i = _
      rw [ih (c.measure d).1 i (by simpa using hi)]
      rw [IntervalCounter.measure_fst]
      have hcnt : c.count + 1 + i + 1 = c.count + (i + 1) + 1 := by omega
      have hwin : (((c.samples ++ [d]).tail ++ ds.take (i + 1)).drop (i + 1))
          = ((c.samples ++ (d :: ds).take (i + 1 + 1)).drop (i + 1 + 1)) := by
        rw [← List.drop_one]
        rw [← List.drop_append_of_le_length (by simp)]
        rw [List.drop_drop]
        have : (d :: ds).take (i + 1 + 1) = d :: ds.take (i + 1) := rfl
        rw [this]
        have h2 : (c.samples ++ [d]) ++ ds.take (i + 1)
            = c.samples ++ (d :: ds.take (i + 1)) := by
          rw [List.append_assoc]
          rfl
        rw [h2]
        congr 1
        omega
      show some _ = some _
      congr 1
      rw [hcnt, hwin]


/-- C1: for every PipelineWorker output queue of capacity C at least 1 and
every sequence of N > C run-loop pushes with no intervening pops, the
queue afterwards contains exactly the last C pushed items in insertion
order (the length-C suffix of the push sequence) and numDrops equals
N - C. -/
theorem relay_keeps_last_C_and_counts_drops {α : Type} (C : Nat) (xs : List α)
    (hC : 1 ≤ C) (hN : C < xs.length) :
    ((Relay.empty C).pushAll xs).queue = xs.drop (xs.length - C) ∧
    ((Relay.empty C).pushAll xs).queue.length = C ∧
    ((Relay.empty C).pushAll xs).numDrops = xs.length - C := by
  obtain ⟨hq, hd, hm⟩ := Relay.pushAll_empty_spec C hC xs
  refine ⟨hq, ?_, hd⟩
  rw [hq, List.length_drop]
  omega

/-- Witness for C1 at capacity 2 and pushes of 1, 2, 3, 4: the queue holds
3 and 4 (popped in that order) and numDrops equals 2. -/
theorem relay_keeps_last_C_and_counts_drops_witness :
    1 ≤ 2 ∧ 2 < ([1, 2, 3, 4] : List Nat).length ∧
    ((Relay.empty 2).pushAll ([1, 2, 3, 4] : List Nat)).queue = [3, 4] ∧
    ((Relay.empty 2).pushAll ([1, 2, 3, 4] : List Nat)).numDrops = 2 := by
  have h := relay_keeps_last_C_and_counts_drops 2 ([1, 2, 3, 4] : List Nat)
    (by decide) (by decide)
  exact ⟨by decide, by decide, by rw [h.1]; decide, by rw [h.2.2]; decide⟩

/-- C2: for every worker queue of capacity N at least 1 and every sequence
of push and pop operations starting from the freshly constructed state,
the occupancy never exceeds N, numDrops never decreases across a further
operation, a push increments numDrops by exactly one when the queue is
full and leaves it unchanged otherwise, and a push always succeeds in
making the pushed item the newest element of the queue. -/
theorem worker_queue_invariants {α : Type} (N : Nat) (hN : 1 ≤ N)
    (ops : List (QOp α)) (op : QOp α) (x : α) :
    ((Relay.empty N : Relay α).applyOps ops).queue.length ≤ N ∧
    ((Relay.empty N : Relay α).applyOps ops).numDrops
      ≤ ((Relay.empty N : Relay α).applyOps (ops ++ [op])).numDrops ∧
    (((Relay.empty N : Relay α).applyOps ops).push x).numDrops
      = (if ((Relay.empty N : Relay α).applyOps ops).full
         then ((Relay.empty N : Relay α).applyOps ops).numDrops + 1
         else ((Relay.empty N : Relay α).applyOps ops).numDrops) ∧
    (((Relay.empty N : Relay α).applyOps ops).push x).queue.getLast? = some x := by
  refine ⟨?_, ?_, ?_, ?_⟩
  · have h := Relay.applyOps_length_le ops (Relay.empty N : Relay α)
      (by simpa [Relay.empty] using hN) (by simp [Relay.empty])
    rwa [Relay.applyOps_maxsize, show (Relay.empty N : Relay α).maxsize = N from rfl] at h
  · rw [Relay.applyOps_append_singleton]
    exact Relay.step_numDrops_le _ op
  · by_cases hfull : ((Relay.empty N : Relay α).applyOps ops).full
      <;> simp [Relay.push, hfull]
  · by_cases hfull : ((Relay.empty N : Relay α).applyOps ops).full
      <;> simp [Relay.push, hfull]

/-- Witness for C2 at capacity 1 with pushes of 1 and 2 then a pop,
followed by one more pop and a push of 7. -/
theorem worker_queue_invariants_witness :
    1 ≤ 1 ∧
    (((Relay.empty 1 : Relay Nat).applyOps [QOp.push 1, QOp.push 2, QOp.pop]).queue.length ≤ 1 ∧
     ((Relay.empty 1 : Relay Nat).applyOps [QOp.push 1, QOp.push 2, QOp.pop]).numDrops
       ≤ ((Relay.empty 1 : Relay Nat).applyOps ([QOp.push 1, QOp.push 2, QOp.pop] ++ [QOp.pop])).numDrops ∧
     (((Relay.empty 1 : Relay Nat).applyOps [QOp.push 1, QOp.push 2, QOp.pop]).push 7).numDrops
       = (if ((Relay.empty 1 : Relay Nat).applyOps [QOp.push 1, QOp.push 2, QOp.pop]).full
          then ((Relay.empty 1 : Relay Nat).applyOps [QOp.push 1, QOp.push 2, QOp.pop]).numDrops + 1
          else ((Relay.empty 1 : Relay Nat).applyOps [QOp.push 1, QOp.push 2, QOp.pop]).numDrops) ∧
     (((Relay.empty 1 : Relay Nat).applyOps [QOp.push 1, QOp.push 2, QOp.pop]).push 7).queue.getLast? = some 7) :=
  ⟨by decide, worker_queue_invariants 1 (by decide) [QOp.push 1, QOp.push 2, QOp.pop] QOp.pop 7⟩

/-- C6: for every worker queue and every interleaved sequence of run-loop
pushes and consumer pops, the sequence of items returned by the pops is
an order-preserving subsequence of the sequence of items accepted by the
pushes: dropped items are omitted and surviving items are never
reordered. -/
theorem popped_is_subsequence_of_pushed {α : Type} (N : Nat) (ops : List (QOp α)) :
    ((Relay.empty N : Relay α).runTrace ops).2.Sublist (pushedOf ops) := by
  have h := Relay.runTrace_sublist ops (Relay.empty N : Relay α)
  simpa [Relay.empty] using h

/-- C8: whenever the process method signals failure on an input, the run
loop of PipelineWorker terminates at that iteration without pushing: the
stage's queue state (contents and numDrops) is exactly what it was before
the failing process call, and nothing is delivered downstream. -/
theorem process_failure_terminates_without_push {α β : Type}
    (process : α → Option β) (r : Relay β) (pre : List α) (x : α) (post : List α)
    (hfail : process x = none) :
    runLoop process r (pre ++ x :: post) = runLoop process r pre := by
  induction pre generalizing r with
  | nil => simp [runLoop, hfail]
  | cons p pre ih =>
    show runLoop process r (p :: (pre ++ x :: post)) = _
    cases hp : process p with
    | none => simp [runLoop, hp]
    | some y =>
      simp only [runLoop, hp]
      exact ih (r.push y)

/-- Witness for C8: a process that fails on input 5 stops the loop there,
leaving the queue exactly as produced by the preceding inputs. -/
theorem process_failure_terminates_without_push_witness :
    ((fun k : Nat => if k < 3 then some k else none) 5 = none) ∧
    runLoop (fun k : Nat => if k < 3 then some k else none) (Relay.empty 2) ([1, 2] ++ 5 :: [7])
      = runLoop (fun k : Nat => if k < 3 then some k else none) (Relay.empty 2) [1, 2] :=
  ⟨by decide,
   process_failure_terminates_without_push _ (Relay.empty 2) [1, 2] 5 [7] (by decide)⟩

/-- C7: a chain of stages whose process methods are total transforms, fed
a source list xs with every stage capacity at least the length of xs (so
no overflow eviction occurs), yields at the tail exactly one output per
source item, and the i-th output is the composition of the transforms in
chain order applied to the i-th source item. -/
theorem chain_composes_transforms {α : Type} (stages : List (Stage α)) (xs : List α)
    (hcap : ∀ s ∈ stages, xs.length ≤ s.qsize) :
    runChain stages xs = xs.map (composeChain stages) ∧
    (runChain stages xs).length = xs.length := by
  have h := runChain_eq_map stages xs hcap
  exact ⟨h, by rw [h, List.length_map]⟩

/-- Witness for C7: two stages (add one, then double) of capacity 3 over
three source items. -/
theorem chain_composes_transforms_witness :
    (∀ s ∈ [Stage.mk (fun a : Nat => a + 1) 3, Stage.mk (fun a : Nat => a * 2) 3],
        ([10, 11, 12] : List Nat).length ≤ s.qsize) ∧
    runChain [Stage.mk (fun a : Nat => a + 1) 3, Stage.mk (fun a : Nat => a * 2) 3]
        ([10, 11, 12] : List Nat)
      = ([10, 11, 12] : List Nat).map
          (composeChain [Stage.mk (fun a : Nat => a + 1) 3, Stage.mk (fun a : Nat => a * 2) 3]) ∧
    (runChain [Stage.mk (fun a : Nat => a + 1) 3, Stage.mk (fun a : Nat => a * 2) 3]
        ([10, 11, 12] : List Nat)).length = ([10, 11, 12] : List Nat).length := by
  refine ⟨?_, ?_⟩
  · intro s hs
    fin_cases hs <;> decide
  · exact chain_composes_transforms _ _ (by intro s hs; fin_cases hs <;> decide)

/-- C3 counterexample: in the two-stage chain, worker 0 is the producer
(source) of worker 1, but both in startPipeline (whose call order is the
scanned pipeline list) and in trt_pose_app.main, the producer's start is
NOT invoked before its consumer's start: the consumer comes first. -/
theorem start_order_not_upstream_first :
    ¬ ((startPipelineOrder (mkChain 2)).indexOf 0 < (startPipelineOrder (mkChain 2)).indexOf 1) ∧
    srcOf (mkChain 2) 1 = some 0 ∧
    ¬ (mainStartOrder.indexOf 0 < mainStartOrder.indexOf 1) ∧
    srcOf mainChain 1 = some 0 := by
  refine ⟨by decide, by decide, by decide, by decide⟩

/-- C3 (amended): for every constructed pipeline chain the stages are
started in downstream-first order (each consumer's start is invoked
before its producer's start) and stopped in the same downstream-first
order, both in ContinuousVideoProcess.startPipeline/stopPipeline (whose
call order is the scanned pipeline list, proved here to be the reversed
construction order) and in the application main. -/
theorem lifecycle_start_stop_downstream_first (n a b i j : Nat) (hij : i < j)
    (ha : (startPipelineOrder (mkChain n)).get? a = some j)
    (hb : (startPipelineOrder (mkChain n)).get? b = some i) :
    a < b ∧
    stopPipelineOrder (mkChain n) = startPipelineOrder (mkChain n) ∧
    mainStartOrder = (List.range 6).reverse ∧
    mainStopOrder = (List.range 6).reverse := by
  have hn : 1 ≤ n := by
    by_contra hc
    have h0 : n = 0 := by omega
    subst h0
    rw [show startPipelineOrder (mkChain 0) = [] from rfl] at ha
    simp at ha
  have hscan := scanPipeline_mkChain n hn
  rw [startPipelineOrder, hscan] at ha hb
  obtain ⟨hal, -⟩ := List.get?_eq_some.mp ha
  obtain ⟨hbl, -⟩ := List.get?_eq_some.mp hb
  simp only [List.length_reverse, List.length_range] at hal hbl
  rw [List.get?_reverse (by simpa using hal), List.length_range] at ha
  rw [List.get?_reverse (by simpa using hbl), List.length_range] at hb
  rw [List.get?_range (by omega)] at ha
  rw [List.get?_range (by omega)] at hb
  have hja : j = n - 1 - a := by exact Option.some.inj ha.symm
  have hib : i = n - 1 - b := by exact Option.some.inj hb.symm
  refine ⟨by omega, rfl, by decide, by decide⟩

/-- Witness for C3 (amended) on the three-stage chain: stage 2 (the
consumer end) occurs at position 0 and stage 0 (the source) at position
2 of the start order. -/
theorem lifecycle_start_stop_downstream_first_witness :
    (0 : Nat) < 2 ∧
    (startPipelineOrder (mkChain 3)).get? 0 = some 2 ∧
    (startPipelineOrder (mkChain 3)).get? 2 = some 0 ∧
    ((0 : Nat) < 2 ∧
     stopPipelineOrder (mkChain 3) = startPipelineOrder (mkChain 3) ∧
     mainStartOrder = (List.range 6).reverse ∧
     mainStopOrder = (List.range 6).reverse) :=
  ⟨by decide, by decide, by decide,
   lifecycle_start_stop_downstream_first 3 0 2 0 2 (by decide) (by decide) (by decide)⟩

/-- C4: for every linear chain of length n at least 1 wired head to tail,
stopPipeline invokes stop in strictly downstream-to-upstream order: the
call order is the reversed construction order, so the sink stage (index
n-1, the worker with no destination) is stopped first and the source
stage (index 0, the worker with no source) is stopped last. -/
theorem stopPipeline_sink_to_source (n : Nat) (hn : 1 ≤ n) :
    stopPipelineOrder (mkChain n) = (List.range n).reverse ∧
    (stopPipelineOrder (mkChain n)).head? = some (n - 1) ∧
    (stopPipelineOrder (mkChain n)).getLast? = some 0 ∧
    destOf (mkChain n) (n - 1) = none ∧
    srcOf (mkChain n) 0 = none := by
  have h := scanPipeline_mkChain n hn
  refine ⟨h, ?_, ?_, ?_, ?_⟩
  · rw [stopPipelineOrder, h, List.head?_reverse]
    cases n with
    | zero => omega
    | succ m => rw [List.range_succ, List.getLast?_concat]; simp
  · rw [stopPipelineOrder, h, List.getLast?_reverse]
    cases n with
    | zero => omega
    | succ m => rw [List.range_succ_eq_map]; rfl
  · rw [destOf_mkChain, if_neg (by omega)]
  · rw [srcOf_mkChain, if_pos (by omega)]
    rfl

/-- Witness for C4 on the three-stage chain. -/
theorem stopPipeline_sink_to_source_witness :
    1 ≤ 3 ∧
    (stopPipelineOrder (mkChain 3) = (List.range 3).reverse ∧
     (stopPipelineOrder (mkChain 3)).head? = some (3 - 1) ∧
     (stopPipelineOrder (mkChain 3)).getLast? = some 0 ∧
     destOf (mkChain 3) (3 - 1) = none ∧
     srcOf (mkChain 3) 0 = none) :=
  ⟨by decide, stopPipeline_sink_to_source 3 (by decide)⟩

/-- C9: for every linear chain of n at least 1 stages wired at
construction time, scanPipeline discovers all n stages by following
destination pointers from the head: the scanned list is exactly the
reversed construction order, hence contains every stage exactly once,
ordered sink to source, and its first element is the tail stage (the
worker with no destination) from which getOutput pulls. -/
theorem scanPipeline_discovers_chain (n : Nat) (hn : 1 ≤ n) :
    scanPipeline (mkChain n) = (List.range n).reverse ∧
    (scanPipeline (mkChain n)).length = n ∧
    (scanPipeline (mkChain n)).Nodup ∧
    (scanPipeline (mkChain n)).head? = some (n - 1) ∧
    destOf (mkChain n) (n - 1) = none := by
  have h := scanPipeline_mkChain n hn
  refine ⟨h, by rw [h]; simp, ?_, ?_, ?_⟩
  · rw [h]
    exact List.nodup_reverse.mpr (List.nodup_range n)
  · rw [h, List.head?_reverse]
    cases n with
    | zero => omega
    | succ m => rw [List.range_succ, List.getLast?_concat]; simp
  · rw [destOf_mkChain, if_neg (by omega)]

/-- Witness for C9 on the four-stage chain. -/
theorem scanPipeline_discovers_chain_witness :
    1 ≤ 4 ∧
    (scanPipeline (mkChain 4) = (List.range 4).reverse ∧
     (scanPipeline (mkChain 4)).length = 4 ∧
     (scanPipeline (mkChain 4)).Nodup ∧
     (scanPipeline (mkChain 4)).head? = some (4 - 1) ∧
     destOf (mkChain 4) (4 - 1) = none) :=
  ⟨by decide, scanPipeline_discovers_chain 4 (by decide)⟩

/-- C10: constructing a PipelineWorker with a non-None source s sets the
destination of s to the new worker while the new worker's own destination
starts as None; consequently in every chain built by successive such
constructions the destination pointers are exactly the inverse of the
source pointers, and every stage is reachable from the head by following
destination links (it appears in the getSources scan). -/
theorem constructor_inverts_links (ws : List Worker) (s : Nat) (hs : s < ws.length)
    (n i j : Nat) :
    destOf (addWorker ws (some s)) s = some ws.length ∧
    (addWorker ws (some s)).getLast? = some { source := some s, destination := none } ∧
    (destOf (mkChain n) i = some j ↔ srcOf (mkChain n) j = some i) ∧
    (i < n → i ∈ getSources (mkChain n) (mkChain n).length (some 0) []) := by
  refine ⟨?_, ?_, ?_, ?_⟩
  · rw [destOf, addWorker]
    rw [List.get?_append (by rw [setDestAt_length]; exact hs)]
    rw [setDestAt_get?, if_pos rfl]
    rw [List.get?_eq_get hs]
    rfl
  · rw [addWorker, List.getLast?_concat]
  · rw [destOf_mkChain, srcOf_mkChain]
    by_cases h1 : i + 1 < n
    · rw [if_pos h1]
      by_cases h2 : j < n
      · rw [if_pos h2]
        by_cases h3 : j = 0
        · subst h3
          simp
        · rw [if_neg h3]
          simp only [Option.some.injEq]
          omega
      · rw [if_neg h2]
        simp only [Option.some.injEq]
        constructor
        · intro he; omega
        · intro he; exact absurd he (by simp)
    · rw [if_neg h1]
      by_cases h2 : j < n
      · rw [if_pos h2]
        by_cases h3 : j = 0
        · subst h3; simp
        · rw [if_neg h3]
          constructor
          · intro he; exact absurd he (by simp)
          · intro he
            have : j - 1 = i := Option.some.inj he
            omega
      · rw [if_neg h2]
        simp
  · intro hin
    rw [mkChain_length, getSources_mkChain n n 0 [] (by omega) (by omega)]
    simp [List.mem_range'_1]
    omega

/-- Witness for C10: appending a worker sourced at index 1 of the
two-stage chain, and the inverse-pointer and reachability facts on the
three-stage chain at stages 1 and 2. -/
theorem constructor_inverts_links_witness :
    1 < (mkChain 2).length ∧
    (destOf (addWorker (mkChain 2) (some 1)) 1 = some (mkChain 2).length ∧
     (addWorker (mkChain 2) (some 1)).getLast? = some { source := some 1, destination := none } ∧
     (destOf (mkChain 3) 1 = some 2 ↔ srcOf (mkChain 3) 2 = some 1) ∧
     (1 < 3 → 1 ∈ getSources (mkChain 3) (mkChain 3).length (some 0) [])) :=
  ⟨by decide, constructor_inverts_links (mkChain 2) 1 (by decide) 3 1 2⟩

/-- C5 counterexample: with window size K = 1 the claim says the K-th
call (here the first) already returns a numeric value, but measure
returns None on that call: the implementation tests count strictly
greater than numSamples, so the first K calls all return None. -/
theorem intervalCounter_kth_call_returns_none :
    ((IntervalCounter.init 1).measure 5).2 = none := rfl

/-- C5 (amended): measure returns None on each of the first K calls and a
numeric value from the (K+1)-th call onward; every numeric value is the
arithmetic mean of the fixed K-slot sample window obtained after the
current interval has been inserted and the oldest slot evicted; and
feeding a constant inter-call interval q for K+5 calls yields a reported
mean equal to q on the final call. -/
theorem intervalCounter_window_mean (K : Nat) (hK : 1 ≤ K) (ds : List ℚ) (i : Nat)
    (hi : i < ds.length) :
    (i < K → (runMeasures (IntervalCounter.init K) ds).2.get? i = some none) ∧
    (K ≤ i → (runMeasures (IntervalCounter.init K) ds).2.get? i
        = some (some ((((List.replicate K (0 : ℚ) ++ ds.take (i + 1)).drop (i + 1)).sum)
                      / (K : ℚ)))) ∧
    ((List.replicate K (0 : ℚ) ++ ds.take (i + 1)).drop (i + 1)).length = K ∧
    (∀ q : ℚ, ds = List.replicate (K + 5) q → i = K + 4 →
        (runMeasures (IntervalCounter.init K) ds).2.get? i = some (some q)) := by
  have hbase := runMeasures_get? ds (IntervalCounter.init K) i hi
  rw [show (IntervalCounter.init K).numSamples = K from rfl,
      show (IntervalCounter.init K).count = 0 from rfl,
      show (IntervalCounter.init K).samples = List.replicate K (0 : ℚ) from rfl] at hbase
  have hlen : ((List.replicate K (0 : ℚ) ++ ds.take (i + 1)).drop (i + 1)).length = K := by
    rw [List.length_drop, List.length_append, List.length_replicate, List.length_take]
    omega
  have hnone : i < K → (runMeasures (IntervalCounter.init K) ds).2.get? i = some none := by
    intro hik
    rw [hbase, if_neg (by omega)]
  have hsome : K ≤ i → (runMeasures (IntervalCounter.init K) ds).2.get? i
      = some (some ((((List.replicate K (0 : ℚ) ++ ds.take (i + 1)).drop (i + 1)).sum)
                    / (K : ℚ))) := by
    intro hik
    rw [hbase, if_pos (by omega), hlen]
  refine ⟨hnone, hsome, hlen, ?_⟩
  intro q hds hieq
  have hW : (List.replicate K (0 : ℚ) ++ ds.take (i + 1)).drop (i + 1)
      = List.replicate K q := by
    subst hds
    subst hieq
    rw [List.take_replicate]
    rw [show (K + 4 + 1) ⊓ (K + 5) = K + 5 by omega]
    rw [List.drop_append_eq_append_drop]
    rw [List.drop_replicate, List.drop_replicate]
    rw [List.length_replicate]
    rw [show K - (K + 4 + 1) = 0 by omega]
    rw [show K + 4 + 1 - K = 5 by omega]
    rw [show K + 5 - 5 = K from by omega]
    rfl
  have hfin := hsome (by omega)
  rw [hfin, hW, List.sum_replicate, nsmul_eq_mul]
  rw [mul_div_cancel_left₀ q (show (K : ℚ) ≠ 0 from Nat.cast_ne_zero.mpr (by omega))]

/-- Witness for C5 (amended) with window size 2 and seven calls at a
constant interval of 5. -/
theorem intervalCounter_window_mean_witness :
    1 ≤ 2 ∧ 6 < (List.replicate 7 (5 : ℚ)).length ∧
    ((6 < 2 → (runMeasures (IntervalCounter.init 2) (List.replicate 7 (5 : ℚ))).2.get? 6
        = some none) ∧
     (2 ≤ 6 → (runMeasures (IntervalCounter.init 2) (List.replicate 7 (5 : ℚ))).2.get? 6
        = some (some ((((List.replicate 2 (0 : ℚ)
            ++ (List.replicate 7 (5 : ℚ)).take (6 + 1)).drop (6 + 1)).sum) / (2 : ℚ)))) ∧
     ((List.replicate 2 (0 : ℚ)
        ++ (List.replicate 7 (5 : ℚ)).take (6 + 1)).drop (6 + 1)).length = 2 ∧
     (∀ q : ℚ, List.replicate 7 (5 : ℚ) = List.replicate (2 + 5) q → 6 = 2 + 4 →
        (runMeasures (IntervalCounter.init 2) (List.replicate 7 (5 : ℚ))).2.get? 6
          = some (some q))) :=
  ⟨by decide, by simp,
   intervalCounter_window_mean 2 (by decide) (List.replicate 7 (5 : ℚ)) 6 (by simp)⟩

end VideoAppUtils
